import Mathlib

/-!
Verification of the one-time-pad transform engine in `src/main.c`
(`encrypt`, `decrypt`, `fsize`) against its specification.

The embedding models an open `FILE*` as a list of bytes plus a cursor, the
`char_container` union as its byte array (`c[8]`) with the `unsigned long long`
member recovered by little-endian reassembly, and the `_rdrand64_step` pad source
as a function from draw index to an optional 64-bit value (`none` models the
instruction reporting failure).  Output files opened in `"wb"` mode are modelled
as the list of bytes written so far.  A ghost event trace records the order in
which the engine draws pad words and touches the streams.
-/

set_option maxHeartbeats 1000000

namespace SimpleOTP

/-- Block width in bytes: `sizeof(unsigned long long)` on the target platform. -/
def ULL_SIZE : Nat := 8

/-- Model of an open `FILE*`: the byte content and the current stream position.
Bytes of real files are always below 256. -/
structure CFile where
  content : List Nat
  pos : Nat

/-- Model of `ftell`. -/
def ftell (fp : CFile) : Int := fp.pos

/-- Model of `fseek(fp, 0L, SEEK_END)`. -/
def fseekEnd (fp : CFile) : CFile := { fp with pos := fp.content.length }

/-- Model of `fseek(fp, off, SEEK_SET)`. -/
def fseekSet (fp : CFile) (off : Int) : CFile := { fp with pos := off.toNat }

/-- `fsize` from `src/main.c`: record the current position, seek to the end,
read the length with `ftell`, seek back to the recorded position, and return the
length together with the stream as it is left behind. -/
def fsize (fp : CFile) : Int × CFile :=
  let prev := ftell fp
  let fp1 := fseekEnd fp
  let sz := ftell fp1
  let fp2 := fseekSet fp1 prev
  (sz, fp2)

/-- Model of `fread(buf, 1, k, fp)`: the bytes actually obtained (fewer than `k`
when the stream has fewer left, exactly as `fread` at end of file) and the
advanced stream. -/
def cfread (fp : CFile) (k : Nat) : List Nat × CFile :=
  let bs := (fp.content.drop fp.pos).take k
  (bs, { fp with pos := fp.pos + bs.length })

/-- Byte `i` of the `char_container` union viewed through its `c` member when the
`ull` member holds `w` (little-endian byte order, as on the x86 target). -/
def bytesOfUll (w : Nat) : List Nat :=
  (List.range ULL_SIZE).map (fun i => w / 256 ^ i % 256)

/-- The `ull` member of the `char_container` union recovered from its byte array
`c` (little-endian reassembly). -/
def ullOf : List Nat → Nat
  | [] => 0
  | b :: bs => b + 256 * ullOf bs

/-- `fread` into the front of a `char_container`'s byte array: the freshly read
bytes land in `c[0..]`, and any byte positions beyond them keep their previous
(stale) values, exactly as a short `fread` leaves the tail of the buffer. -/
def setBytes (c bs : List Nat) : List Nat := bs ++ c.drop bs.length

/-- Failure taxonomy of the transform engine.  In the source these are process
exits: `InvalidSize` is `invalid_file_size` (exit 2), `SizeMismatch` is
`size_missmatch` (exit 3), `EntropyUnavailable` is the `exit(3)` taken when
`_rdrand64_step` reports failure.  `ShortRead` is the spec's name for a stream
yielding fewer bytes than its declared size promised; it is part of the
taxonomy so that theorems can ask whether the code ever reports it. -/
inductive TransformError where
  | InvalidSize
  | SizeMismatch
  | ShortRead
  | EntropyUnavailable
  deriving DecidableEq

/-- Ghost trace events recording the order of the operations `encrypt` performs.
Each carries the block index it belongs to and, for stream operations, the byte
count requested. -/
inductive Ev where
  | draw (i : Nat)
  | writePad (i k : Nat)
  | readIn (i k : Nat)
  | xorBlock (i : Nat)
  | writeOut (i k : Nat)
  deriving DecidableEq

/-- State threaded through `encrypt`'s core loop: the plaintext stream, the
`cipher_pad` container bytes, the bytes written so far to the pad and ciphertext
output streams, and the ghost event trace. -/
structure EncSt where
  plain : CFile
  cpad : List Nat
  padOut : List Nat
  out : List Nat
  events : List Ev

/-- The core encryption loop `for (long i = 0; i < blocks_r.quot; ++i)` from
`encrypt`, processing `n` full blocks starting at block index `i`.  Per block,
in source order: draw one pad word with `_rdrand64_step` (on failure the program
prints and exits with code 3 — modelled as `EntropyUnavailable`, leaving the
outputs as already written); `fwrite` the pad word's 8 bytes to the pad stream;
`fread` 8 bytes of plaintext into `cipher_pad` (the return value is ignored,
exactly as in the source); XOR the two `ull` members; `fwrite` the 8 result
bytes to the ciphertext stream. -/
def encBlocks (src : Nat → Option Nat) : Nat → Nat → EncSt → Option TransformError × EncSt
  | _, 0, s => (none, s)
  | i, n + 1, s =>
    match src i with
    | none => (some .EntropyUnavailable, { s with events := s.events ++ [.draw i] })
    | some v =>
      let otp := bytesOfUll v
      let rd := cfread s.plain ULL_SIZE
      let cpad1 := setBytes s.cpad rd.1
      let cpad2 := bytesOfUll (ullOf cpad1 ^^^ ullOf otp)
      encBlocks src (i + 1) n
        { plain := rd.2, cpad := cpad2,
          padOut := s.padOut ++ otp,
          out := s.out ++ cpad2,
          events := s.events ++
            [.draw i, .writePad i ULL_SIZE, .readIn i ULL_SIZE, .xorBlock i,
             .writeOut i ULL_SIZE] }

/-- Result of an `encrypt` run: the error it stopped with (`none` on success),
the bytes written to the pad stream (`otp`) and ciphertext stream (`ouput`), the
ghost event trace, and the final plaintext stream state. -/
structure EncResult where
  err : Option TransformError
  padOut : List Nat
  cipherOut : List Nat
  events : List Ev
  plainFinal : CFile

/-- Body of `encrypt` after the `fsize` call, taking the size that `fsize`
returned.  Mirrors the source: reject `cipher_size <= 0` (`invalid_file_size`,
before anything is written); split the size with `ldiv` into `quot` full blocks
and a `rem` remainder; run the core loop; then, if `rem` is nonzero, draw one
more pad word, write only its first `rem` bytes to the pad stream, `fread` `rem`
plaintext bytes into `cipher_pad` (leaving its high bytes stale), XOR the `ull`
members and write the first `rem` result bytes. -/
def encryptCore (size : Int) (plain_text : CFile) (src : Nat → Option Nat) : EncResult :=
  if size ≤ 0 then
    { err := some .InvalidSize, padOut := [], cipherOut := [], events := [],
      plainFinal := plain_text }
  else
    let q := size.toNat / ULL_SIZE
    let r := size.toNat % ULL_SIZE
    let s0 : EncSt :=
      { plain := plain_text, cpad := List.replicate ULL_SIZE 0, padOut := [], out := [],
        events := [] }
    match encBlocks src 0 q s0 with
    | (some e, s) =>
      { err := some e, padOut := s.padOut, cipherOut := s.out, events := s.events,
        plainFinal := s.plain }
    | (none, s) =>
      if r = 0 then
        { err := none, padOut := s.padOut, cipherOut := s.out, events := s.events,
          plainFinal := s.plain }
      else
        match src q with
        | none =>
          { err := some .EntropyUnavailable, padOut := s.padOut, cipherOut := s.out,
            events := s.events ++ [.draw q], plainFinal := s.plain }
        | some v =>
          let otp := bytesOfUll v
          let rd := cfread s.plain r
          let cpad1 := setBytes s.cpad rd.1
          let cpad2 := bytesOfUll (ullOf cpad1 ^^^ ullOf otp)
          { err := none,
            padOut := s.padOut ++ otp.take r,
            cipherOut := s.out ++ cpad2.take r,
            events := s.events ++
              [.draw q, .writePad q r, .readIn q r, .xorBlock q, .writeOut q r],
            plainFinal := rd.2 }

/-- `encrypt` from `src/main.c`: take the stream's length with `fsize` (which
restores the stream position) and run the block transform. -/
def encrypt (plain_text : CFile) (src : Nat → Option Nat) : EncResult :=
  encryptCore (fsize plain_text).1 (fsize plain_text).2 src

/-- State threaded through `decrypt`'s core loop: the ciphertext and pad
streams, the `one_time_pad` and `cipher_pad` container bytes, the bytes written
so far to the output stream, and the ghost list of processed block sizes. -/
structure DecSt where
  cipher : CFile
  pad : CFile
  otpC : List Nat
  cpad : List Nat
  out : List Nat
  blocks : List Nat

/-- The core decryption loop from `decrypt`, processing `n` full blocks.  Per
block, in source order: `fread` 8 pad bytes into `one_time_pad`, `fread` 8
ciphertext bytes into `cipher_pad` (return values ignored, as in the source),
XOR the `ull` members, `fwrite` the 8 result bytes to the output stream. -/
def decBlocks : Nat → DecSt → DecSt
  | 0, s => s
  | n + 1, s =>
    let rp := cfread s.pad ULL_SIZE
    let otp1 := setBytes s.otpC rp.1
    let rc := cfread s.cipher ULL_SIZE
    let cpad1 := setBytes s.cpad rc.1
    let cpad2 := bytesOfUll (ullOf cpad1 ^^^ ullOf otp1)
    decBlocks n
      { cipher := rc.2, pad := rp.2, otpC := otp1, cpad := cpad2,
        out := s.out ++ cpad2, blocks := s.blocks ++ [ULL_SIZE] }

/-- Result of a `decrypt` run: the error it stopped with (`none` on success),
the bytes written to the output stream, the ghost list of processed block
sizes, and the final ciphertext and pad stream states. -/
structure DecResult where
  err : Option TransformError
  out : List Nat
  blocks : List Nat
  cipherFinal : CFile
  padFinal : CFile

/-- `decrypt` from `src/main.c`: take both stream lengths with `fsize`, reject
a non-positive ciphertext size, then a non-positive pad size
(`invalid_file_size`), then unequal sizes (`size_missmatch`) — all before any
byte is read or written; then run the block loop and, if the remainder is
nonzero, process one final short block the same way, reading only `rem` bytes
into the low positions of each container (high bytes stay stale) and writing
only the first `rem` XOR result bytes. -/
def decrypt (cipher_text : CFile) (otp : CFile) : DecResult :=
  let fc := fsize cipher_text
  if fc.1 ≤ 0 then
    { err := some .InvalidSize, out := [], blocks := [], cipherFinal := fc.2,
      padFinal := otp }
  else
    let fp := fsize otp
    if fp.1 ≤ 0 then
      { err := some .InvalidSize, out := [], blocks := [], cipherFinal := fc.2,
        padFinal := fp.2 }
    else if fc.1 ≠ fp.1 then
      { err := some .SizeMismatch, out := [], blocks := [], cipherFinal := fc.2,
        padFinal := fp.2 }
    else
      let q := fc.1.toNat / ULL_SIZE
      let r := fc.1.toNat % ULL_SIZE
      let s0 : DecSt :=
        { cipher := fc.2, pad := fp.2, otpC := List.replicate ULL_SIZE 0,
          cpad := List.replicate ULL_SIZE 0, out := [], blocks := [] }
      let s := decBlocks q s0
      if r = 0 then
        { err := none, out := s.out, blocks := s.blocks, cipherFinal := s.cipher,
          padFinal := s.pad }
      else
        let rp := cfread s.pad r
        let otp1 := setBytes s.otpC rp.1
        let rc := cfread s.cipher r
        let cpad1 := setBytes s.cpad rc.1
        let cpad2 := bytesOfUll (ullOf cpad1 ^^^ ullOf otp1)
        { err := none, out := s.out ++ cpad2.take r, blocks := s.blocks ++ [r],
          cipherFinal := rc.2, padFinal := rp.2 }

/-- The bytes a successful run of the core loop writes to the pad stream for
`n` full blocks starting at block index `i`, when draw `k` yields `src k`. -/
def padStream (src : Nat → Nat) (i n : Nat) : List Nat :=
  match n with
  | 0 => []
  | n + 1 => bytesOfUll (src i) ++ padStream src (i + 1) n

/-- The bytes a successful run of the core loop writes to the ciphertext stream
for `n` full blocks starting at block index `i`, given the plaintext bytes `P`
those blocks consume: block by block, the bytewise XOR of 8 plaintext bytes
against the bytes of that block's pad word. -/
def cipherStream (src : Nat → Nat) (i n : Nat) (P : List Nat) : List Nat :=
  match n with
  | 0 => []
  | n + 1 =>
    List.zipWith (· ^^^ ·) (P.take ULL_SIZE) (bytesOfUll (src i)) ++
      cipherStream src (i + 1) n (P.drop ULL_SIZE)

/-- The ghost events one loop iteration of `encrypt` records for block `i` with
byte count `k`. -/
def blockEvs (i k : Nat) : List Ev :=
  [.draw i, .writePad i k, .readIn i k, .xorBlock i, .writeOut i k]

/-- The ghost events `n` successful full-block iterations starting at block
index `i` record. -/
def fullEvs (i n : Nat) : List Ev :=
  match n with
  | 0 => []
  | n + 1 => blockEvs i ULL_SIZE ++ fullEvs (i + 1) n

/-- The block index an event belongs to. -/
def evIdx : Ev → Nat
  | .draw i => i
  | .writePad i _ => i
  | .readIn i _ => i
  | .xorBlock i => i
  | .writeOut i _ => i

/-- The draw index, for pad-draw events. -/
def evDrawIdx : Ev → Option Nat
  | .draw i => some i
  | _ => none

/-- The requested byte count, for plaintext-read events. -/
def evReadSize : Ev → Option Nat
  | .readIn _ k => some k
  | _ => none

/-! ### The `char_container` union: byte array vs `ull` member -/

theorem bytesOfUll_length (w : Nat) : (bytesOfUll w).length = 8 := by
  simp [bytesOfUll, ULL_SIZE]

theorem bytesOfUll_lt (w : Nat) : ∀ b ∈ bytesOfUll w, b < 256 := by
  intro b hb
  simp only [bytesOfUll, List.mem_map, List.mem_range] at hb
  obtain ⟨i, _, rfl⟩ := hb
  exact Nat.mod_lt _ (by norm_num)

theorem getElem_bytesOfUll (w i : Nat) (h : i < (bytesOfUll w).length) :
    (bytesOfUll w)[i] = w / 256 ^ i % 256 := by
  simp [bytesOfUll, ULL_SIZE]

theorem ullOf_getD (c : List Nat) (hb : ∀ b ∈ c, b < 256) :
    ∀ i, ullOf c / 256 ^ i % 256 = c.getD i 0 := by
  induction c with
  | nil => intro i; simp [ullOf, Nat.zero_div]
  | cons b bs ih =>
    intro i
    have hb' : b < 256 := hb b (by simp)
    cases i with
    | zero =>
      simp only [pow_zero, Nat.div_one, List.getD_cons_zero, ullOf]
      rw [Nat.add_mul_mod_self_left, Nat.mod_eq_of_lt hb']
    | succ i =>
      have h1 : ullOf (b :: bs) / 256 ^ (i + 1) = ullOf bs / 256 ^ i := by
        have h2 : (256 : Nat) ^ (i + 1) = 256 * 256 ^ i := by ring
        rw [h2, ← Nat.div_div_eq_div_mul]
        have h3 : ullOf (b :: bs) / 256 = ullOf bs := by
          show (b + 256 * ullOf bs) / 256 = ullOf bs
          rw [Nat.add_mul_div_left _ _ (by norm_num : (0:Nat) < 256),
            Nat.div_eq_of_lt hb', Nat.zero_add]
        rw [h3]
      rw [h1, ih (fun x hx => hb x (by simp [hx])), List.getD_cons_succ]

theorem bytesOfUll_ullOf (c : List Nat) (hl : c.length = 8) (hb : ∀ b ∈ c, b < 256) :
    bytesOfUll (ullOf c) = c := by
  apply List.ext_getElem (by rw [bytesOfUll_length, hl])
  intro n h1 h2
  rw [getElem_bytesOfUll _ _ h1, ullOf_getD c hb n, List.getD_eq_getElem c 0 h2]

/-- XOR on a pair of values assembled byte-by-byte acts independently on the low
byte and on the rest: the bit-level content of `cipher_pad.ull ^= one_time_pad.ull`. -/
theorem xor_add_mul (a b X Y : Nat) (ha : a < 256) (hbb : b < 256) :
    (a + 256 * X) ^^^ (b + 256 * Y) = (a ^^^ b) + 256 * (X ^^^ Y) := by
  have e1 : a + 256 * X = 2 ^ 8 * X + a := by ring
  have e2 : b + 256 * Y = 2 ^ 8 * Y + b := by ring
  have e3 : (a ^^^ b) + 256 * (X ^^^ Y) = 2 ^ 8 * (X ^^^ Y) + (a ^^^ b) := by ring
  apply Nat.eq_of_testBit_eq
  intro j
  rw [Nat.testBit_xor, e1, e2, e3,
    Nat.testBit_mul_pow_two_add X (show a < 2 ^ 8 by omega) j,
    Nat.testBit_mul_pow_two_add Y (show b < 2 ^ 8 by omega) j,
    Nat.testBit_mul_pow_two_add (X ^^^ Y)
      (Nat.xor_lt_two_pow (show a < 2 ^ 8 by omega) (show b < 2 ^ 8 by omega)) j]
  by_cases hj : j < 8 <;> simp [hj, Nat.testBit_xor]

theorem ullOf_zipWith_xor :
    ∀ (c d : List Nat), c.length = d.length →
      (∀ b ∈ c, b < 256) → (∀ b ∈ d, b < 256) →
      ullOf (List.zipWith (· ^^^ ·) c d) = ullOf c ^^^ ullOf d
  | [], [], _, _, _ => by simp [ullOf]
  | a :: c, b :: d, hl, hc, hd => by
    have ha : a < 256 := hc a (by simp)
    have hb : b < 256 := hd b (by simp)
    show (a ^^^ b) + 256 * ullOf (List.zipWith (· ^^^ ·) c d) = _
    rw [ullOf_zipWith_xor c d (by simpa using hl)
        (fun x hx => hc x (by simp [hx])) (fun x hx => hd x (by simp [hx]))]
    exact (xor_add_mul a b (ullOf c) (ullOf d) ha hb).symm

theorem zipWith_xor_lt :
    ∀ (c d : List Nat), (∀ b ∈ c, b < 256) → (∀ b ∈ d, b < 256) →
      ∀ b ∈ List.zipWith (· ^^^ ·) c d, b < 256
  | [], _, _, _ => by simp
  | _ :: _, [], _, _ => by simp
  | a :: c, b :: d, hc, hd => by
    intro x hx
    rcases List.mem_cons.mp hx with h | h
    · subst h
      exact Nat.xor_lt_two_pow (show a < 2 ^ 8 from by have := hc a (by simp); omega)
        (show b < 2 ^ 8 from by have := hd b (by simp); omega)
    · exact zipWith_xor_lt c d (fun y hy => hc y (by simp [hy]))
        (fun y hy => hd y (by simp [hy])) x h

/-- The word-level XOR the source performs on the `ull` members is, seen through
the union's byte array, the bytewise XOR of the two byte arrays. -/
theorem bytesOfUll_xor (c d : List Nat) (hc : c.length = 8) (hd : d.length = 8)
    (hcb : ∀ b ∈ c, b < 256) (hdb : ∀ b ∈ d, b < 256) :
    bytesOfUll (ullOf c ^^^ ullOf d) = List.zipWith (· ^^^ ·) c d := by
  rw [← ullOf_zipWith_xor c d (hc.trans hd.symm) hcb hdb]
  exact bytesOfUll_ullOf _ (by rw [List.length_zipWith, hc, hd]; rfl)
    (zipWith_xor_lt c d hcb hdb)

theorem zipWith_xor_cancel :
    ∀ (c d : List Nat), c.length = d.length →
      List.zipWith (· ^^^ ·) (List.zipWith (· ^^^ ·) c d) d = c
  | [], [], _ => by simp
  | a :: c, b :: d, hl => by
    simp only [List.zipWith_cons_cons]
    rw [zipWith_xor_cancel c d (by simpa using hl), Nat.xor_cancel_right]

/-! ### Helpers about containers and streams -/

theorem setBytes_full (c bs : List Nat) (hc : c.length = 8) (hbs : bs.length = 8) :
    setBytes c bs = bs := by
  unfold setBytes
  rw [hbs, ← hc, List.drop_length, List.append_nil]

theorem setBytes_length (c bs : List Nat) (h : bs.length ≤ c.length) :
    (setBytes c bs).length = c.length := by
  simp only [setBytes, List.length_append, List.length_drop]
  omega

theorem setBytes_lt (c bs : List Nat) (hc : ∀ b ∈ c, b < 256) (hbs : ∀ b ∈ bs, b < 256) :
    ∀ b ∈ setBytes c bs, b < 256 := by
  intro b hb
  rcases List.mem_append.mp hb with h | h
  · exact hbs b h
  · exact hc b (List.drop_subset _ _ h)

theorem fsize_eq (fp : CFile) : fsize fp = ((fp.content.length : Int), fp) := by
  simp [fsize, ftell, fseekEnd, fseekSet]

theorem cfread_full (C : List Nat) (p k : Nat) (h : p + k ≤ C.length) :
    cfread ⟨C, p⟩ k = ((C.drop p).take k, ⟨C, p + k⟩) := by
  have hlen : ((C.drop p).take k).length = k := by
    rw [List.length_take, List.length_drop]
    omega
  simp [cfread, hlen]

theorem take_drop_lt (C : List Nat) (hb : ∀ b ∈ C, b < 256) (p k : Nat) :
    ∀ b ∈ (C.drop p).take k, b < 256 :=
  fun b h => hb b (List.drop_subset _ _ (List.take_subset _ _ h))

/-! ### Unfolding equations for the loops -/

theorem encBlocks_zero (src : Nat → Option Nat) (i : Nat) (s : EncSt) :
    encBlocks src i 0 s = (none, s) := rfl

theorem encBlocks_succ (src : Nat → Option Nat) (i n : Nat) (s : EncSt) (v : Nat)
    (h : src i = some v) :
    encBlocks src i (n + 1) s =
      encBlocks src (i + 1) n
        { plain := (cfread s.plain ULL_SIZE).2,
          cpad := bytesOfUll
            (ullOf (setBytes s.cpad (cfread s.plain ULL_SIZE).1) ^^^ ullOf (bytesOfUll v)),
          padOut := s.padOut ++ bytesOfUll v,
          out := s.out ++ bytesOfUll
            (ullOf (setBytes s.cpad (cfread s.plain ULL_SIZE).1) ^^^ ullOf (bytesOfUll v)),
          events := s.events ++ blockEvs i ULL_SIZE } := by
  simp [encBlocks, h, blockEvs]

theorem encBlocks_none (src : Nat → Option Nat) (i n : Nat) (s : EncSt)
    (h : src i = none) :
    encBlocks src i (n + 1) s =
      (some .EntropyUnavailable, { s with events := s.events ++ [.draw i] }) := by
  simp [encBlocks, h]

/-- Full characterization of a successful pass of `encrypt`'s core loop:
starting at block index `i` with `n` full blocks ahead, all draws succeeding
and the plaintext stream holding at least `8 * n` bytes past the cursor, the
loop writes each block's pad word to the pad stream, the bytewise XOR of
plaintext and pad to the ciphertext stream, advances the cursor by exactly
`8 * n`, and records the canonical event trace. -/
theorem encBlocks_spec (src : Nat → Option Nat) (f : Nat → Nat) :
    ∀ (n i : Nat) (s : EncSt) (C : List Nat) (p : Nat),
      (∀ k, i ≤ k → k < i + n → src k = some (f k)) →
      s.plain = ⟨C, p⟩ →
      (∀ b ∈ C, b < 256) →
      p + 8 * n ≤ C.length →
      s.cpad.length = 8 →
      (∀ b ∈ s.cpad, b < 256) →
      ∃ cp : List Nat,
        encBlocks src i n s =
          (none,
            { plain := ⟨C, p + 8 * n⟩, cpad := cp,
              padOut := s.padOut ++ padStream f i n,
              out := s.out ++ cipherStream f i n ((C.drop p).take (8 * n)),
              events := s.events ++ fullEvs i n }) ∧
        cp.length = 8 ∧ (∀ b ∈ cp, b < 256) := by
  intro n
  induction n with
  | zero =>
    intro i s C p _ hplain _ _ hcl hcb
    obtain ⟨pl, cpd, po, ou, ev⟩ := s
    replace hplain : pl = CFile.mk C p := hplain
    subst hplain
    exact ⟨cpd, by simp [encBlocks_zero, padStream, cipherStream, fullEvs], hcl, hcb⟩
  | succ n ih =>
    intro i s C p hsrc hplain hCb hlen hcl hcb
    obtain ⟨pl, cpd, po, ou, ev⟩ := s
    replace hplain : pl = CFile.mk C p := hplain
    subst hplain
    replace hcl : cpd.length = 8 := hcl
    replace hcb : ∀ b ∈ cpd, b < 256 := hcb
    have hsrci : src i = some (f i) := hsrc i (Nat.le_refl i) (by omega)
    have hread : cfread ⟨C, p⟩ ULL_SIZE = ((C.drop p).take 8, ⟨C, p + 8⟩) := by
      have h8 : (ULL_SIZE : Nat) = 8 := rfl
      rw [h8]
      exact cfread_full C p 8 (by omega)
    have hbs : ((C.drop p).take 8).length = 8 := by
      rw [List.length_take, List.length_drop]
      omega
    have hbsb : ∀ b ∈ (C.drop p).take 8, b < 256 := take_drop_lt C hCb p 8
    have hZl : (List.zipWith (· ^^^ ·) ((C.drop p).take 8) (bytesOfUll (f i))).length = 8 := by
      rw [List.length_zipWith, hbs, bytesOfUll_length]
      rfl
    have hZb : ∀ b ∈ List.zipWith (· ^^^ ·) ((C.drop p).take 8) (bytesOfUll (f i)), b < 256 :=
      zipWith_xor_lt _ _ hbsb (bytesOfUll_lt _)
    obtain ⟨cp, heq, hcpl, hcpb⟩ :=
      ih (i + 1)
        ⟨⟨C, p + 8⟩,
          List.zipWith (· ^^^ ·) ((C.drop p).take 8) (bytesOfUll (f i)),
          po ++ bytesOfUll (f i),
          ou ++ List.zipWith (· ^^^ ·) ((C.drop p).take 8) (bytesOfUll (f i)),
          ev ++ blockEvs i ULL_SIZE⟩
        C (p + 8)
        (fun k h1 h2 => hsrc k (by omega) (by omega))
        rfl hCb (by omega) hZl hZb
    refine ⟨cp, ?_, hcpl, hcpb⟩
    rw [encBlocks_succ src i n _ (f i) hsrci]
    dsimp only
    rw [hread]
    dsimp only
    rw [setBytes_full cpd _ hcl hbs,
      bytesOfUll_xor _ _ hbs (bytesOfUll_length _) hbsb (bytesOfUll_lt _)]
    rw [heq]
    have hP1 : ((C.drop p).take (8 * (n + 1))).take 8 = (C.drop p).take 8 := by
      rw [List.take_take, inf_eq_left.mpr (by omega)]
    have h88 : 8 * (n + 1) - 8 = 8 * n := by omega
    have hP2 : ((C.drop p).take (8 * (n + 1))).drop 8 = (C.drop (p + 8)).take (8 * n) := by
      rw [List.drop_take, List.drop_drop, h88]
    have hpos : p + 8 + 8 * n = p + 8 * (n + 1) := by omega
    simp only [padStream, cipherStream, fullEvs, ULL_SIZE, hP1, hP2, hpos,
      List.append_assoc]

/-- Full characterization of a successful `encrypt` run over a byte stream
positioned at the start, with every pad draw succeeding: all `P.length / 8`
full blocks, then the remainder block when `P.length % 8` is nonzero, of which
only the first `P.length % 8` pad and XOR bytes are written. -/
theorem encrypt_spec (P : List Nat) (f : Nat → Nat)
    (hb : ∀ b ∈ P, b < 256) (hne : P ≠ []) :
    encrypt ⟨P, 0⟩ (fun k => some (f k)) =
      { err := none,
        padOut := padStream f 0 (P.length / 8) ++
          (bytesOfUll (f (P.length / 8))).take (P.length % 8),
        cipherOut := cipherStream f 0 (P.length / 8) (P.take (8 * (P.length / 8))) ++
          List.zipWith (· ^^^ ·) (P.drop (8 * (P.length / 8)))
            ((bytesOfUll (f (P.length / 8))).take (P.length % 8)),
        events := fullEvs 0 (P.length / 8) ++
          (if P.length % 8 = 0 then [] else blockEvs (P.length / 8) (P.length % 8)),
        plainFinal := ⟨P, P.length⟩ } := by
  have hL : 0 < P.length := List.length_pos.mpr hne
  obtain ⟨cp, heq, hcpl, hcpb⟩ :=
    encBlocks_spec (fun k => some (f k)) f (P.length / 8) 0
      ⟨⟨P, 0⟩, List.replicate 8 0, [], [], []⟩ P 0
      (fun k _ _ => rfl) rfl hb (by omega) (by simp) (by simp)
  unfold encrypt encryptCore
  rw [fsize_eq]
  dsimp only
  rw [if_neg (by omega : ¬((P.length : Int) ≤ 0))]
  simp only [Int.toNat_natCast, ULL_SIZE]
  rw [heq]
  by_cases hr : P.length % 8 = 0
  · rw [if_pos hr]
    have hL8 : 8 * (P.length / 8) = P.length := by omega
    simp [hr, hL8, List.drop_zero, List.take_length, List.drop_length]
  · rw [if_neg hr]
    dsimp only
    have hq8 : 8 * (P.length / 8) ≤ P.length := by omega
    have hrd : cfread ⟨P, 0 + 8 * (P.length / 8)⟩ (P.length % 8) =
        ((P.drop (8 * (P.length / 8))).take (P.length % 8),
          ⟨P, 8 * (P.length / 8) + P.length % 8⟩) := by
      rw [Nat.zero_add]
      exact cfread_full P _ _ (by omega)
    have hdl : (P.drop (8 * (P.length / 8))).length = P.length % 8 := by
      rw [List.length_drop]
      omega
    have htk : (P.drop (8 * (P.length / 8))).take (P.length % 8) = P.drop (8 * (P.length / 8)) :=
      List.take_of_length_le (by omega)
    rw [hrd]
    dsimp only
    rw [htk]
    have hc1l : (setBytes cp (P.drop (8 * (P.length / 8)))).length = 8 := by
      rw [setBytes_length cp _ (by omega)]
      exact hcpl
    have hc1b : ∀ b ∈ setBytes cp (P.drop (8 * (P.length / 8))), b < 256 :=
      setBytes_lt cp _ hcpb (fun b h => hb b (List.drop_subset _ _ h))
    rw [bytesOfUll_xor _ _ hc1l (bytesOfUll_length _) hc1b (bytesOfUll_lt _)]
    rw [List.take_zipWith]
    have hc1t : (setBytes cp (P.drop (8 * (P.length / 8)))).take (P.length % 8) =
        P.drop (8 * (P.length / 8)) := by
      unfold setBytes
      rw [← hdl, List.take_left]
    rw [hc1t]
    have hfin : 8 * (P.length / 8) + P.length % 8 = P.length := by omega
    simp [hr, hfin, List.drop_zero, blockEvs]

theorem padStream_length (f : Nat → Nat) :
    ∀ (n i : Nat), (padStream f i n).length = 8 * n := by
  intro n
  induction n with
  | zero => intro i; simp [padStream]
  | succ n ih =>
    intro i
    simp only [padStream, List.length_append, bytesOfUll_length, ih (i + 1)]
    omega

theorem padStream_lt (f : Nat → Nat) :
    ∀ (n i : Nat), ∀ b ∈ padStream f i n, b < 256 := by
  intro n
  induction n with
  | zero => intro i; simp [padStream]
  | succ n ih =>
    intro i b hb
    rcases List.mem_append.mp hb with h | h
    · exact bytesOfUll_lt _ b h
    · exact ih (i + 1) b h

theorem cipherStream_length (f : Nat → Nat) :
    ∀ (n i : Nat) (Q : List Nat), 8 * n ≤ Q.length →
      (cipherStream f i n Q).length = 8 * n := by
  intro n
  induction n with
  | zero => intro i Q _; simp [cipherStream]
  | succ n ih =>
    intro i Q hQ
    simp only [cipherStream, List.length_append, List.length_zipWith, List.length_take,
      bytesOfUll_length, ULL_SIZE, ih (i + 1) (Q.drop 8) (by rw [List.length_drop]; omega)]
    have : Q.length ⊓ 8 ⊓ 8 = 8 := by
      rw [inf_assoc, inf_idem, inf_eq_right.mpr (by omega)]
    omega

theorem decBlocks_zero (s : DecSt) : decBlocks 0 s = s := rfl

theorem decBlocks_succ (n : Nat) (s : DecSt) :
    decBlocks (n + 1) s =
      decBlocks n
        { cipher := (cfread s.cipher ULL_SIZE).2,
          pad := (cfread s.pad ULL_SIZE).2,
          otpC := setBytes s.otpC (cfread s.pad ULL_SIZE).1,
          cpad := bytesOfUll
            (ullOf (setBytes s.cpad (cfread s.cipher ULL_SIZE).1) ^^^
              ullOf (setBytes s.otpC (cfread s.pad ULL_SIZE).1)),
          out := s.out ++ bytesOfUll
            (ullOf (setBytes s.cpad (cfread s.cipher ULL_SIZE).1) ^^^
              ullOf (setBytes s.otpC (cfread s.pad ULL_SIZE).1)),
          blocks := s.blocks ++ [ULL_SIZE] } := by
  simp [decBlocks]

/-- Full characterization of the core decryption loop over streams whose
remaining contents are the pad and ciphertext chunks a successful encryption of
the plaintext chunk `Q` produced: the loop writes exactly `Q` back to the
output stream and consumes `8 * n` bytes from each input stream. -/
theorem decBlocks_spec (f : Nat → Nat) :
    ∀ (n i : Nat) (s : DecSt) (PC CC : List Nat) (pp cpos : Nat) (Q PR CR : List Nat),
      s.pad = ⟨PC, pp⟩ →
      s.cipher = ⟨CC, cpos⟩ →
      PC.drop pp = padStream f i n ++ PR →
      CC.drop cpos = cipherStream f i n Q ++ CR →
      Q.length = 8 * n →
      (∀ b ∈ Q, b < 256) →
      s.otpC.length = 8 →
      (∀ b ∈ s.otpC, b < 256) →
      s.cpad.length = 8 →
      (∀ b ∈ s.cpad, b < 256) →
      ∃ oc cpd : List Nat,
        decBlocks n s =
          { cipher := ⟨CC, cpos + 8 * n⟩, pad := ⟨PC, pp + 8 * n⟩,
            otpC := oc, cpad := cpd,
            out := s.out ++ Q,
            blocks := s.blocks ++ List.replicate n 8 } ∧
        oc.length = 8 ∧ (∀ b ∈ oc, b < 256) ∧ cpd.length = 8 ∧ (∀ b ∈ cpd, b < 256) := by
  intro n
  induction n with
  | zero =>
    intro i s PC CC pp cpos Q PR CR hpad hcip _ _ hQl _ hocl hocb hcpl hcpb
    obtain ⟨ci, pa, oC, cpd, ou, bl⟩ := s
    replace hpad : pa = CFile.mk PC pp := hpad
    replace hcip : ci = CFile.mk CC cpos := hcip
    subst hpad hcip
    refine ⟨oC, cpd, ?_, hocl, hocb, hcpl, hcpb⟩
    have hQnil : Q = [] := List.eq_nil_of_length_eq_zero (by omega)
    simp [decBlocks_zero, hQnil]
  | succ n ih =>
    intro i s PC CC pp cpos Q PR CR hpad hcip hpdrop hcdrop hQl hQb hocl hocb hcpl hcpb
    obtain ⟨ci, pa, oC, cpd, ou, bl⟩ := s
    replace hpad : pa = CFile.mk PC pp := hpad
    replace hcip : ci = CFile.mk CC cpos := hcip
    subst hpad hcip
    replace hocl : oC.length = 8 := hocl
    replace hocb : ∀ b ∈ oC, b < 256 := hocb
    replace hcpl : cpd.length = 8 := hcpl
    replace hcpb : ∀ b ∈ cpd, b < 256 := hcpb
    have hpdrop' : PC.drop pp = bytesOfUll (f i) ++ (padStream f (i + 1) n ++ PR) := by
      rw [hpdrop]
      simp [padStream, List.append_assoc]
    have hQt8 : (Q.take 8).length = 8 := by
      rw [List.length_take]
      exact inf_eq_left.mpr (by omega)
    have hQt8b : ∀ b ∈ Q.take 8, b < 256 := fun b h => hQb b (List.take_subset _ _ h)
    have hZ8 : (List.zipWith (· ^^^ ·) (Q.take 8) (bytesOfUll (f i))).length = 8 := by
      rw [List.length_zipWith, hQt8, bytesOfUll_length]
      rfl
    have hZ8b : ∀ b ∈ List.zipWith (· ^^^ ·) (Q.take 8) (bytesOfUll (f i)), b < 256 :=
      zipWith_xor_lt _ _ hQt8b (bytesOfUll_lt _)
    have hcdrop' : CC.drop cpos =
        List.zipWith (· ^^^ ·) (Q.take 8) (bytesOfUll (f i)) ++
          (cipherStream f (i + 1) n (Q.drop 8) ++ CR) := by
      rw [hcdrop]
      simp [cipherStream, ULL_SIZE, List.append_assoc]
    have hpb : (PC.drop pp).take 8 = bytesOfUll (f i) := by
      rw [hpdrop', List.take_left' (bytesOfUll_length (f i))]
    have hcb : (CC.drop cpos).take 8 = List.zipWith (· ^^^ ·) (Q.take 8) (bytesOfUll (f i)) := by
      rw [hcdrop', List.take_left' hZ8]
    have hreadp : cfread ⟨PC, pp⟩ ULL_SIZE = (bytesOfUll (f i), ⟨PC, pp + 8⟩) := by
      simp [cfread, ULL_SIZE, hpb, bytesOfUll_length]
    have hreadc : cfread ⟨CC, cpos⟩ ULL_SIZE =
        (List.zipWith (· ^^^ ·) (Q.take 8) (bytesOfUll (f i)), ⟨CC, cpos + 8⟩) := by
      simp [cfread, ULL_SIZE, hcb, hZ8]
    rw [decBlocks_succ]
    dsimp only
    rw [hreadp, hreadc]
    dsimp only
    rw [setBytes_full oC _ hocl (bytesOfUll_length _),
      setBytes_full cpd _ hcpl hZ8,
      bytesOfUll_xor _ _ hZ8 (bytesOfUll_length _) hZ8b (bytesOfUll_lt _),
      zipWith_xor_cancel _ _ (hQt8.trans (bytesOfUll_length _).symm)]
    have hnpd : PC.drop (pp + 8) = padStream f (i + 1) n ++ PR := by
      rw [← List.drop_drop, hpdrop', List.drop_left' (bytesOfUll_length (f i))]
    have hncd : CC.drop (cpos + 8) = cipherStream f (i + 1) n (Q.drop 8) ++ CR := by
      rw [← List.drop_drop, hcdrop', List.drop_left' hZ8]
    obtain ⟨oc, cpd', heq, h1, h2, h3, h4⟩ :=
      ih (i + 1)
        ⟨⟨CC, cpos + 8⟩, ⟨PC, pp + 8⟩, bytesOfUll (f i), Q.take 8,
          ou ++ Q.take 8, bl ++ [ULL_SIZE]⟩
        PC CC (pp + 8) (cpos + 8) (Q.drop 8) PR CR rfl rfl hnpd hncd
        (by rw [List.length_drop]; omega)
        (fun b h => hQb b (List.drop_subset _ _ h))
        (bytesOfUll_length _) (bytesOfUll_lt _) hQt8 hQt8b
    refine ⟨oc, cpd', ?_, h1, h2, h3, h4⟩
    rw [heq]
    have hp1 : cpos + 8 + 8 * n = cpos + 8 * (n + 1) := by omega
    have hp2 : pp + 8 + 8 * n = pp + 8 * (n + 1) := by omega
    simp [hp1, hp2, List.append_assoc, List.take_append_drop, ULL_SIZE,
      List.replicate_succ]

/-- A `decrypt` run over the exact streams a successful encryption produced
(`q` full blocks of plaintext `Q`, remainder `R` of length `r < 8`) succeeds
and writes back exactly `Q ++ R`. -/
theorem decrypt_spec (f : Nat → Nat) (q r : Nat) (Q R : List Nat)
    (hQl : Q.length = 8 * q) (hQb : ∀ b ∈ Q, b < 256)
    (hRl : R.length = r) (hr8 : r < 8) (hRb : ∀ b ∈ R, b < 256)
    (hpos : 0 < 8 * q + r) :
    (decrypt
        ⟨cipherStream f 0 q Q ++
          List.zipWith (· ^^^ ·) R ((bytesOfUll (f q)).take r), 0⟩
        ⟨padStream f 0 q ++ (bytesOfUll (f q)).take r, 0⟩).err = none ∧
    (decrypt
        ⟨cipherStream f 0 q Q ++
          List.zipWith (· ^^^ ·) R ((bytesOfUll (f q)).take r), 0⟩
        ⟨padStream f 0 q ++ (bytesOfUll (f q)).take r, 0⟩).out = Q ++ R := by
  have hKr : ((bytesOfUll (f q)).take r).length = r := by
    rw [List.length_take, bytesOfUll_length]
    exact inf_eq_left.mpr (by omega)
  have hKrb : ∀ b ∈ (bytesOfUll (f q)).take r, b < 256 :=
    fun b h => bytesOfUll_lt _ b (List.take_subset _ _ h)
  have hCRl : (List.zipWith (· ^^^ ·) R ((bytesOfUll (f q)).take r)).length = r := by
    rw [List.length_zipWith, hRl, hKr, inf_idem]
  have hCRb : ∀ b ∈ List.zipWith (· ^^^ ·) R ((bytesOfUll (f q)).take r), b < 256 :=
    zipWith_xor_lt _ _ hRb hKrb
  have hCSl : (cipherStream f 0 q Q).length = 8 * q :=
    cipherStream_length f q 0 Q (by omega)
  have hCCl : (cipherStream f 0 q Q ++
      List.zipWith (· ^^^ ·) R ((bytesOfUll (f q)).take r)).length = 8 * q + r := by
    rw [List.length_append, hCSl, hCRl]
  have hPCl : (padStream f 0 q ++ (bytesOfUll (f q)).take r).length = 8 * q + r := by
    rw [List.length_append, padStream_length, hKr]
  obtain ⟨oc, cpd, heq, hocl, hocb, hcpl2, hcpb2⟩ :=
    decBlocks_spec f q 0
      ⟨⟨cipherStream f 0 q Q ++
          List.zipWith (· ^^^ ·) R ((bytesOfUll (f q)).take r), 0⟩,
        ⟨padStream f 0 q ++ (bytesOfUll (f q)).take r, 0⟩,
        List.replicate 8 0, List.replicate 8 0, [], []⟩
      (padStream f 0 q ++ (bytesOfUll (f q)).take r)
      (cipherStream f 0 q Q ++
        List.zipWith (· ^^^ ·) R ((bytesOfUll (f q)).take r))
      0 0 Q ((bytesOfUll (f q)).take r)
      (List.zipWith (· ^^^ ·) R ((bytesOfUll (f q)).take r))
      rfl rfl (by rw [List.drop_zero]) (by rw [List.drop_zero]) hQl hQb
      (by simp) (by simp) (by simp) (by simp)
  have hq : (8 * q + r) / 8 = q := by omega
  have hrq : (8 * q + r) % 8 = r := by omega
  unfold decrypt
  rw [fsize_eq, fsize_eq]
  dsimp only
  rw [hCCl, hPCl]
  rw [if_neg (by omega : ¬((8 * q + r : Nat) : Int) ≤ 0)]
  rw [if_neg (by omega : ¬((8 * q + r : Nat) : Int) ≤ 0)]
  rw [if_neg (not_not_intro rfl)]
  simp only [Int.toNat_natCast, ULL_SIZE, hq, hrq]
  rw [heq]
  dsimp only
  by_cases hr0 : r = 0
  · subst hr0
    have hRnil : R = [] := List.eq_nil_of_length_eq_zero hRl
    simp [hRnil]
  · rw [if_neg hr0]
    have hpd : (padStream f 0 q ++ (bytesOfUll (f q)).take r).drop (0 + 8 * q) =
        (bytesOfUll (f q)).take r := by
      rw [Nat.zero_add, List.drop_left' (padStream_length f q 0)]
    have hcd : (cipherStream f 0 q Q ++
        List.zipWith (· ^^^ ·) R ((bytesOfUll (f q)).take r)).drop (0 + 8 * q) =
        List.zipWith (· ^^^ ·) R ((bytesOfUll (f q)).take r) := by
      rw [Nat.zero_add, List.drop_left' hCSl]
    have hreadp : cfread ⟨padStream f 0 q ++ (bytesOfUll (f q)).take r, 0 + 8 * q⟩ r =
        ((bytesOfUll (f q)).take r,
          ⟨padStream f 0 q ++ (bytesOfUll (f q)).take r, 0 + 8 * q + r⟩) := by
      simp only [cfread, hpd, List.take_of_length_le (le_of_eq hKr), hKr]
    have hreadc : cfread ⟨cipherStream f 0 q Q ++
        List.zipWith (· ^^^ ·) R ((bytesOfUll (f q)).take r), 0 + 8 * q⟩ r =
        (List.zipWith (· ^^^ ·) R ((bytesOfUll (f q)).take r),
          ⟨cipherStream f 0 q Q ++
            List.zipWith (· ^^^ ·) R ((bytesOfUll (f q)).take r), 0 + 8 * q + r⟩) := by
      simp only [cfread, hcd, List.take_of_length_le (le_of_eq hCRl), hCRl]
    rw [hreadp, hreadc]
    dsimp only
    have hso : (setBytes oc ((bytesOfUll (f q)).take r)).length = 8 := by
      rw [setBytes_length oc _ (by omega)]
      exact hocl
    have hsob : ∀ b ∈ setBytes oc ((bytesOfUll (f q)).take r), b < 256 :=
      setBytes_lt oc _ hocb hKrb
    have hsc : (setBytes cpd (List.zipWith (· ^^^ ·) R ((bytesOfUll (f q)).take r))).length = 8 := by
      rw [setBytes_length cpd _ (by omega)]
      exact hcpl2
    have hscb : ∀ b ∈ setBytes cpd (List.zipWith (· ^^^ ·) R ((bytesOfUll (f q)).take r)), b < 256 :=
      setBytes_lt cpd _ hcpb2 hCRb
    rw [bytesOfUll_xor _ _ hsc hso hscb hsob]
    rw [List.take_zipWith]
    have ht1 : (setBytes cpd (List.zipWith (· ^^^ ·) R ((bytesOfUll (f q)).take r))).take r =
        List.zipWith (· ^^^ ·) R ((bytesOfUll (f q)).take r) := by
      unfold setBytes
      rw [List.take_append_of_le_length (le_of_eq hCRl.symm),
        List.take_of_length_le (le_of_eq hCRl)]
    have ht2 : (setBytes oc ((bytesOfUll (f q)).take r)).take r =
        (bytesOfUll (f q)).take r := by
      unfold setBytes
      rw [List.take_append_of_le_length (le_of_eq hKr.symm),
        List.take_of_length_le (le_of_eq hKr)]
    rw [ht1, ht2, zipWith_xor_cancel R _ (hRl.trans hKr.symm)]
    simp

/-- Accounting for a core-loop run that ended without error, with no assumption
on the plaintext stream: every iteration appends exactly 8 bytes to each output
stream and the canonical events to the trace. -/
theorem encBlocks_ok (src : Nat → Option Nat) :
    ∀ (n i : Nat) (s s' : EncSt),
      encBlocks src i n s = (none, s') →
      s'.padOut.length = s.padOut.length + 8 * n ∧
      s'.out.length = s.out.length + 8 * n ∧
      s'.events = s.events ++ fullEvs i n := by
  intro n
  induction n with
  | zero =>
    intro i s s' h
    rw [encBlocks_zero] at h
    injection h with _ h2
    subst h2
    refine ⟨by omega, by omega, by simp [fullEvs]⟩
  | succ n ih =>
    intro i s s' h
    cases hsi : src i with
    | none =>
      rw [encBlocks_none _ _ _ _ hsi] at h
      injection h with h1 _
      exact absurd h1 (by simp)
    | some v =>
      rw [encBlocks_succ _ _ _ _ v hsi] at h
      obtain ⟨h1, h2, h3⟩ := ih (i + 1) _ s' h
      simp only [List.length_append, bytesOfUll_length] at h1 h2
      refine ⟨by omega, by omega, ?_⟩
      rw [h3]
      simp [fullEvs, List.append_assoc]

/-- When every draw a core-loop run needs succeeds, the run ends without error,
with the same accounting. -/
theorem encBlocks_succeeds (src : Nat → Option Nat) :
    ∀ (n i : Nat) (s : EncSt),
      (∀ k, i ≤ k → k < i + n → src k ≠ none) →
      ∃ s', encBlocks src i n s = (none, s') ∧
        s'.padOut.length = s.padOut.length + 8 * n ∧
        s'.out.length = s.out.length + 8 * n ∧
        s'.events = s.events ++ fullEvs i n := by
  intro n
  induction n with
  | zero =>
    intro i s _
    exact ⟨s, rfl, by omega, by omega, by simp [fullEvs]⟩
  | succ n ih =>
    intro i s hsome
    cases hsi : src i with
    | none => exact absurd hsi (hsome i (Nat.le_refl i) (by omega))
    | some v =>
      obtain ⟨s', h1, h2, h3, h4⟩ :=
        ih (i + 1)
          { plain := (cfread s.plain ULL_SIZE).2,
            cpad := bytesOfUll
              (ullOf (setBytes s.cpad (cfread s.plain ULL_SIZE).1) ^^^ ullOf (bytesOfUll v)),
            padOut := s.padOut ++ bytesOfUll v,
            out := s.out ++ bytesOfUll
              (ullOf (setBytes s.cpad (cfread s.plain ULL_SIZE).1) ^^^ ullOf (bytesOfUll v)),
            events := s.events ++ blockEvs i ULL_SIZE }
          (fun k hk1 hk2 => hsome k (by omega) (by omega))
      refine ⟨s', ?_, ?_, ?_, ?_⟩
      · rw [encBlocks_succ _ _ _ _ v hsi]
        exact h1
      · simp only [List.length_append, bytesOfUll_length] at h2
        omega
      · simp only [List.length_append, bytesOfUll_length] at h3
        omega
      · rw [h4]
        simp [fullEvs, blockEvs, List.append_assoc]

/-- When the first failing draw is draw `j`, the core loop stops there with
`EntropyUnavailable`: it has processed exactly the `j - i` blocks before `j`,
drawn each of their pad words once, attempted draw `j` exactly once, and
processed nothing after it. -/
theorem encBlocks_fail_spec (src : Nat → Option Nat) :
    ∀ (n i j : Nat) (s : EncSt),
      i ≤ j → j < i + n →
      (∀ k, i ≤ k → k < j → src k ≠ none) →
      src j = none →
      ∃ s', encBlocks src i n s = (some .EntropyUnavailable, s') ∧
        s'.padOut.length = s.padOut.length + 8 * (j - i) ∧
        s'.out.length = s.out.length + 8 * (j - i) ∧
        s'.events = s.events ++ fullEvs i (j - i) ++ [.draw j] := by
  intro n
  induction n with
  | zero =>
    intro i j s h1 h2 _ _
    exact absurd h2 (by omega)
  | succ n ih =>
    intro i j s hij hjn hsome hnone
    rcases Nat.eq_or_lt_of_le hij with heq | hlt
    · subst heq
      rw [encBlocks_none _ _ _ _ hnone]
      refine ⟨_, rfl, by simp, by simp, ?_⟩
      simp [fullEvs]
    · cases hsi : src i with
      | none => exact absurd hsi (hsome i (Nat.le_refl i) hlt)
      | some v =>
        rw [encBlocks_succ _ _ _ _ v hsi]
        obtain ⟨s', h1, h2, h3, h4⟩ := ih (i + 1) j _ (by omega) (by omega)
          (fun k hk1 hk2 => hsome k (by omega) hk2) hnone
        refine ⟨s', h1, ?_, ?_, ?_⟩
        · simp only [List.length_append, bytesOfUll_length] at h2
          omega
        · simp only [List.length_append, bytesOfUll_length] at h3
          omega
        · rw [h4]
          have hone : j - i = (j - (i + 1)) + 1 := by omega
          rw [hone]
          simp [fullEvs, List.append_assoc]

/-- Accounting for the core decryption loop over arbitrary streams holding
enough bytes: each iteration consumes 8 bytes from each input, records one
8-byte block, and writes 8 bytes. -/
theorem decBlocks_acc :
    ∀ (n : Nat) (s : DecSt) (PC CC : List Nat) (pp cpos : Nat),
      s.pad = ⟨PC, pp⟩ →
      s.cipher = ⟨CC, cpos⟩ →
      pp + 8 * n ≤ PC.length →
      cpos + 8 * n ≤ CC.length →
      (decBlocks n s).pad = ⟨PC, pp + 8 * n⟩ ∧
      (decBlocks n s).cipher = ⟨CC, cpos + 8 * n⟩ ∧
      (decBlocks n s).blocks = s.blocks ++ List.replicate n 8 ∧
      (decBlocks n s).out.length = s.out.length + 8 * n := by
  intro n
  induction n with
  | zero =>
    intro s PC CC pp cpos hpad hcip _ _
    rw [decBlocks_zero]
    refine ⟨?_, ?_, by simp, by omega⟩
    · rw [hpad]; simp
    · rw [hcip]; simp
  | succ n ih =>
    intro s PC CC pp cpos hpad hcip hpl hcl
    have hbsp : ((PC.drop pp).take 8).length = 8 := by
      rw [List.length_take, List.length_drop]
      exact inf_eq_left.mpr (by omega)
    have hbsc : ((CC.drop cpos).take 8).length = 8 := by
      rw [List.length_take, List.length_drop]
      exact inf_eq_left.mpr (by omega)
    have hreadp : (cfread ⟨PC, pp⟩ ULL_SIZE).2 = ⟨PC, pp + 8⟩ := by
      simp [cfread, ULL_SIZE, hbsp]
    have hreadc : (cfread ⟨CC, cpos⟩ ULL_SIZE).2 = ⟨CC, cpos + 8⟩ := by
      simp [cfread, ULL_SIZE, hbsc]
    rw [decBlocks_succ]
    rw [hpad, hcip]
    rw [hreadp, hreadc]
    obtain ⟨h1, h2, h3, h4⟩ := ih
      { cipher := ⟨CC, cpos + 8⟩, pad := ⟨PC, pp + 8⟩,
        otpC := setBytes s.otpC (cfread ⟨PC, pp⟩ ULL_SIZE).1,
        cpad := bytesOfUll
          (ullOf (setBytes s.cpad (cfread ⟨CC, cpos⟩ ULL_SIZE).1) ^^^
            ullOf (setBytes s.otpC (cfread ⟨PC, pp⟩ ULL_SIZE).1)),
        out := s.out ++ bytesOfUll
          (ullOf (setBytes s.cpad (cfread ⟨CC, cpos⟩ ULL_SIZE).1) ^^^
            ullOf (setBytes s.otpC (cfread ⟨PC, pp⟩ ULL_SIZE).1)),
        blocks := s.blocks ++ [ULL_SIZE] }
      PC CC (pp + 8) (cpos + 8) rfl rfl (by omega) (by omega)
    refine ⟨?_, ?_, ?_, ?_⟩
    · rw [h1]
      have : pp + 8 + 8 * n = pp + 8 * (n + 1) := by omega
      rw [this]
    · rw [h2]
      have : cpos + 8 + 8 * n = cpos + 8 * (n + 1) := by omega
      rw [this]
    · rw [h3]
      simp [ULL_SIZE, List.replicate_succ, List.append_assoc]
    · rw [h4]
      simp only [List.length_append, bytesOfUll_length]
      omega

/-- Accounting for a full `decrypt` run over equal-length nonempty streams
positioned at the start: it succeeds, records `len / 8` full blocks plus one
`len mod 8` block when the remainder is nonzero, and leaves both input cursors
at the stream length. -/
theorem decrypt_acc (CC PC : List Nat) (hc : 0 < CC.length) (hlen : PC.length = CC.length) :
    (decrypt ⟨CC, 0⟩ ⟨PC, 0⟩).err = none ∧
    (decrypt ⟨CC, 0⟩ ⟨PC, 0⟩).blocks =
      List.replicate (CC.length / 8) 8 ++
        (if CC.length % 8 = 0 then [] else [CC.length % 8]) ∧
    (decrypt ⟨CC, 0⟩ ⟨PC, 0⟩).cipherFinal.pos = CC.length ∧
    (decrypt ⟨CC, 0⟩ ⟨PC, 0⟩).padFinal.pos = CC.length := by
  unfold decrypt
  rw [fsize_eq, fsize_eq]
  dsimp only
  rw [if_neg (by omega : ¬((CC.length : Int) ≤ 0)),
    if_neg (by omega : ¬((PC.length : Int) ≤ 0)),
    if_neg (not_not_intro (by exact_mod_cast hlen.symm))]
  simp only [Int.toNat_natCast, ULL_SIZE]
  obtain ⟨hdp, hdc, hdb, _⟩ :=
    decBlocks_acc (CC.length / 8)
      ⟨⟨CC, 0⟩, ⟨PC, 0⟩, List.replicate 8 0, List.replicate 8 0, [], []⟩
      PC CC 0 0 rfl rfl (by omega) (by omega)
  by_cases hr : CC.length % 8 = 0
  · rw [if_pos hr]
    refine ⟨rfl, ?_, ?_, ?_⟩
    · show (decBlocks (CC.length / 8) _).blocks = _
      rw [hdb]
      simp [hr]
    · show (decBlocks (CC.length / 8) _).cipher.pos = _
      rw [hdc]
      show 0 + 8 * (CC.length / 8) = CC.length
      omega
    · show (decBlocks (CC.length / 8) _).pad.pos = _
      rw [hdp]
      show 0 + 8 * (CC.length / 8) = CC.length
      omega
  · rw [if_neg hr]
    rw [hdp, hdc]
    have hcdl : ((CC.drop (0 + 8 * (CC.length / 8))).take (CC.length % 8)).length =
        CC.length % 8 := by
      rw [List.length_take, List.length_drop]
      exact inf_eq_left.mpr (by omega)
    have hpdl : ((PC.drop (0 + 8 * (CC.length / 8))).take (CC.length % 8)).length =
        CC.length % 8 := by
      rw [List.length_take, List.length_drop]
      exact inf_eq_left.mpr (by omega)
    refine ⟨rfl, ?_, ?_, ?_⟩
    · show (decBlocks (CC.length / 8) _).blocks ++ [CC.length % 8] = _
      rw [hdb]
      simp [hr]
    · show (0 + 8 * (CC.length / 8)) +
        ((CC.drop (0 + 8 * (CC.length / 8))).take (CC.length % 8)).length = CC.length
      rw [hcdl]
      omega
    · show (0 + 8 * (CC.length / 8)) +
        ((PC.drop (0 + 8 * (CC.length / 8))).take (CC.length % 8)).length = CC.length
      rw [hpdl]
      omega

/-! ### Facts about the event trace -/

theorem blockEvs_filterMap_draw (i k : Nat) :
    (blockEvs i k).filterMap evDrawIdx = [i] := by
  simp [blockEvs, evDrawIdx]

theorem fullEvs_filterMap_draw :
    ∀ (n i : Nat), (fullEvs i n).filterMap evDrawIdx = List.range' i n := by
  intro n
  induction n with
  | zero => intro i; simp [fullEvs]
  | succ n ih =>
    intro i
    simp [fullEvs, List.filterMap_append, blockEvs_filterMap_draw, ih (i + 1),
      List.range'_succ]

theorem blockEvs_filterMap_read (i k : Nat) :
    (blockEvs i k).filterMap evReadSize = [k] := by
  simp [blockEvs, evReadSize]

theorem fullEvs_filterMap_read :
    ∀ (n i : Nat), (fullEvs i n).filterMap evReadSize = List.replicate n 8 := by
  intro n
  induction n with
  | zero => intro i; simp [fullEvs]
  | succ n ih =>
    intro i
    simp [fullEvs, List.filterMap_append, blockEvs_filterMap_read, ih (i + 1),
      List.replicate_succ, ULL_SIZE]

theorem blockEvs_sublist (i k : Nat) :
    List.Sublist [Ev.draw i, Ev.xorBlock i] (blockEvs i k) := by
  unfold blockEvs
  exact .cons₂ _ (.cons _ (.cons _ (.cons₂ _ (.cons _ .slnil))))

theorem fullEvs_block_infix :
    ∀ (n i j : Nat), i ≤ j → j < i + n →
      ∃ l1 l2, fullEvs i n = l1 ++ (blockEvs j ULL_SIZE ++ l2) := by
  intro n
  induction n with
  | zero => intro i j _ h2; exact absurd h2 (by omega)
  | succ n ih =>
    intro i j hij hjn
    rcases Nat.eq_or_lt_of_le hij with heq | hlt
    · subst heq
      exact ⟨[], fullEvs (i + 1) n, by simp [fullEvs]⟩
    · obtain ⟨l1, l2, h⟩ := ih (i + 1) j (by omega) (by omega)
      exact ⟨blockEvs i ULL_SIZE ++ l1, l2, by simp [fullEvs, h, List.append_assoc]⟩

theorem blockEvs_idx (i k : Nat) : ∀ e ∈ blockEvs i k, evIdx e = i := by
  intro e he
  simp only [blockEvs, List.mem_cons, List.not_mem_nil, or_false] at he
  rcases he with rfl | rfl | rfl | rfl | rfl <;> rfl

theorem fullEvs_idx_bound :
    ∀ (n i : Nat), ∀ e ∈ fullEvs i n, i ≤ evIdx e ∧ evIdx e < i + n := by
  intro n
  induction n with
  | zero => intro i e he; simp [fullEvs] at he
  | succ n ih =>
    intro i e he
    rcases List.mem_append.mp he with h | h
    · rw [blockEvs_idx i ULL_SIZE e h]
      omega
    · have := ih (i + 1) e h
      omega

theorem blockEvs_pairwise (i k : Nat) :
    List.Pairwise (fun a b => evIdx a ≤ evIdx b) (blockEvs i k) := by
  simp [blockEvs, evIdx]

theorem fullEvs_pairwise :
    ∀ (n i : Nat), List.Pairwise (fun a b => evIdx a ≤ evIdx b) (fullEvs i n) := by
  intro n
  induction n with
  | zero => intro i; simp [fullEvs]
  | succ n ih =>
    intro i
    rw [fullEvs, List.pairwise_append]
    refine ⟨blockEvs_pairwise i ULL_SIZE, ih (i + 1), ?_⟩
    intro a ha b hb
    rw [blockEvs_idx i ULL_SIZE a ha]
    have := fullEvs_idx_bound n (i + 1) b hb
    omega

/-! ### Claim theorems -/

/-- C10: for every open stream, `fsize` returns the stream's total length in
bytes and leaves the read/write position unchanged — it records the position,
seeks to the end to measure, and restores the recorded position, so the block
loops in `encrypt` and `decrypt` still read from the position the stream had
on entry. -/
theorem c10_fsize_frame (fp : CFile) :
    (fsize fp).1 = (fp.content.length : Int) ∧ (fsize fp).2 = fp := by
  rw [fsize_eq]
  exact ⟨rfl, rfl⟩

/-- C2: `decrypt` on positive but unequal ciphertext/pad lengths fails with
`SizeMismatch`, and the failure happens before any byte is read from either
input or written to the output: the output stream receives zero bytes, no
block is processed, and both input cursors are exactly where they were on
entry. -/
theorem c2_size_mismatch (cf pf : CFile)
    (hc : 0 < cf.content.length) (hp : 0 < pf.content.length)
    (hne : cf.content.length ≠ pf.content.length) :
    (decrypt cf pf).err = some TransformError.SizeMismatch ∧
    (decrypt cf pf).out = [] ∧
    (decrypt cf pf).blocks = [] ∧
    (decrypt cf pf).cipherFinal.pos = cf.pos ∧
    (decrypt cf pf).padFinal.pos = pf.pos := by
  unfold decrypt
  rw [fsize_eq, fsize_eq]
  dsimp only
  rw [if_neg (by omega : ¬((cf.content.length : Int) ≤ 0)),
    if_neg (by omega : ¬((pf.content.length : Int) ≤ 0)),
    if_pos (by exact_mod_cast hne)]
  exact ⟨rfl, rfl, rfl, rfl, rfl⟩

/-- C5: a zero-length input stream makes `encrypt` and `decrypt` fail with
`InvalidSize` and write zero bytes to every output stream.  The model's stream
lengths are never negative, so the source's `<= 0` check triggers exactly on
length `0` here. -/
theorem c5_empty_rejected (plain cf pf : CFile) (src : Nat → Option Nat) :
    (plain.content.length = 0 →
      (encrypt plain src).err = some TransformError.InvalidSize ∧
      (encrypt plain src).padOut = [] ∧
      (encrypt plain src).cipherOut = []) ∧
    (cf.content.length = 0 →
      (decrypt cf pf).err = some TransformError.InvalidSize ∧
      (decrypt cf pf).out = []) ∧
    (pf.content.length = 0 →
      (decrypt cf pf).err = some TransformError.InvalidSize ∧
      (decrypt cf pf).out = []) := by
  refine ⟨?_, ?_, ?_⟩
  · intro h
    unfold encrypt encryptCore
    rw [fsize_eq]
    dsimp only
    rw [if_pos (by omega : ((plain.content.length : Int) ≤ 0))]
    exact ⟨rfl, rfl, rfl⟩
  · intro h
    unfold decrypt
    rw [fsize_eq, fsize_eq]
    dsimp only
    rw [if_pos (by omega : ((cf.content.length : Int) ≤ 0))]
    exact ⟨rfl, rfl⟩
  · intro h
    by_cases hc : cf.content.length = 0
    · unfold decrypt
      rw [fsize_eq, fsize_eq]
      dsimp only
      rw [if_pos (by omega : ((cf.content.length : Int) ≤ 0))]
      exact ⟨rfl, rfl⟩
    · unfold decrypt
      rw [fsize_eq, fsize_eq]
      dsimp only
      rw [if_neg (by omega : ¬((cf.content.length : Int) ≤ 0)),
        if_pos (by omega : ((pf.content.length : Int) ≤ 0))]
      exact ⟨rfl, rfl⟩

/-- C4: the source never checks `fread`'s return value, so there is no
short-read detection at all.  In the spec's torn-stream scenario — `fsize`
reported 8 bytes, but the stream now yields only 3 — `encrypt` does not abort
with `ShortRead`: it finishes the block, XORs the pad word against the stale
container bytes, writes a full 8-byte ciphertext block and reports success. -/
theorem c4_no_short_read_check :
    (encryptCore 8 ⟨[1, 2, 3], 0⟩ (fun _ => some 0)).err ≠ some TransformError.ShortRead ∧
    (encryptCore 8 ⟨[1, 2, 3], 0⟩ (fun _ => some 0)).err = none ∧
    (encryptCore 8 ⟨[1, 2, 3], 0⟩ (fun _ => some 0)).cipherOut =
      [1, 2, 3, 0, 0, 0, 0, 0] := by
  exact ⟨by decide, by decide, by decide⟩

/-- C1: for every plaintext byte stream `P` of positive length (any length,
multiple of 8 or not), decrypting the ciphertext and pad streams produced by a
successful `encrypt` of `P` yields exactly `P`, byte for byte. -/
theorem c1_round_trip (P : List Nat) (f : Nat → Nat)
    (hb : ∀ b ∈ P, b < 256) (hne : P ≠ []) :
    (encrypt ⟨P, 0⟩ (fun k => some (f k))).err = none ∧
    (decrypt ⟨(encrypt ⟨P, 0⟩ (fun k => some (f k))).cipherOut, 0⟩
        ⟨(encrypt ⟨P, 0⟩ (fun k => some (f k))).padOut, 0⟩).err = none ∧
    (decrypt ⟨(encrypt ⟨P, 0⟩ (fun k => some (f k))).cipherOut, 0⟩
        ⟨(encrypt ⟨P, 0⟩ (fun k => some (f k))).padOut, 0⟩).out = P := by
  have hL : 0 < P.length := List.length_pos.mpr hne
  rw [encrypt_spec P f hb hne]
  dsimp only
  have hQl : (P.take (8 * (P.length / 8))).length = 8 * (P.length / 8) := by
    rw [List.length_take]
    exact inf_eq_left.mpr (by omega)
  have hRl : (P.drop (8 * (P.length / 8))).length = P.length % 8 := by
    rw [List.length_drop]
    omega
  obtain ⟨h1, h2⟩ := decrypt_spec f (P.length / 8) (P.length % 8)
    (P.take (8 * (P.length / 8))) (P.drop (8 * (P.length / 8)))
    hQl (fun b h => hb b (List.take_subset _ _ h))
    hRl (by omega) (fun b h => hb b (List.drop_subset _ _ h))
    (by omega)
  exact ⟨rfl, h1, by rw [h2, List.take_append_drop]⟩

/-- C6: every block of a successful `encrypt` consumes one freshly drawn pad
word used for no other block: the pad stream is exactly the concatenation of
the per-block pad words, with only the first `len mod 8` bytes of the final
extra word written when the length is not a multiple of 8 (its unused high
bytes appear in no output); ciphertext block `i` is the XOR of block `i`'s
plaintext against pad word `i` alone; and the trace contains exactly one draw
event per block, each with a distinct index — no word is redrawn or reused. -/
theorem c6_pad_freshness (P : List Nat) (f : Nat → Nat)
    (hb : ∀ b ∈ P, b < 256) (hne : P ≠ []) :
    (encrypt ⟨P, 0⟩ (fun k => some (f k))).padOut =
      padStream f 0 (P.length / 8) ++
        (bytesOfUll (f (P.length / 8))).take (P.length % 8) ∧
    (encrypt ⟨P, 0⟩ (fun k => some (f k))).cipherOut =
      cipherStream f 0 (P.length / 8) (P.take (8 * (P.length / 8))) ++
        List.zipWith (· ^^^ ·) (P.drop (8 * (P.length / 8)))
          ((bytesOfUll (f (P.length / 8))).take (P.length % 8)) ∧
    (encrypt ⟨P, 0⟩ (fun k => some (f k))).events.filterMap evDrawIdx =
      List.range (P.length / 8 + (if P.length % 8 = 0 then 0 else 1)) := by
  rw [encrypt_spec P f hb hne]
  refine ⟨rfl, rfl, ?_⟩
  dsimp only
  rw [List.filterMap_append, fullEvs_filterMap_draw]
  by_cases hr : P.length % 8 = 0
  · simp [hr, List.range_eq_range']
  · rw [if_neg hr, if_neg hr, blockEvs_filterMap_draw]
    rw [List.range_succ, List.range_eq_range']

/-- C3: after every successful `encrypt`, the pad stream and the ciphertext
stream have each received exactly as many bytes as the plaintext stream's
length (`len(ciphertext) == len(pad) == len(plaintext)`). -/
theorem c3_length_preservation (plain : CFile) (src : Nat → Option Nat)
    (h : (encrypt plain src).err = none) :
    (encrypt plain src).padOut.length = plain.content.length ∧
    (encrypt plain src).cipherOut.length = plain.content.length := by
  unfold encrypt encryptCore at h ⊢
  rw [fsize_eq] at h ⊢
  dsimp only at h ⊢
  by_cases hL : plain.content.length = 0
  · rw [if_pos (by omega : ((plain.content.length : Int) ≤ 0))] at h
    exact absurd h (by simp)
  · rw [if_neg (by omega : ¬((plain.content.length : Int) ≤ 0))] at h ⊢
    simp only [Int.toNat_natCast, ULL_SIZE] at h ⊢
    rcases henc : encBlocks src 0 (plain.content.length / 8)
        ⟨plain, List.replicate 8 0, [], [], []⟩ with ⟨oe, s⟩
    rw [henc] at h
    cases oe with
    | some e => simp at h
    | none =>
      dsimp only at h ⊢
      obtain ⟨hp, ho, _⟩ := encBlocks_ok src _ 0 _ s henc
      simp only [List.length_nil, Nat.zero_add] at hp ho
      have hmin : (plain.content.length % 8) ⊓ 8 = plain.content.length % 8 :=
        inf_eq_left.mpr (by omega)
      by_cases hr : plain.content.length % 8 = 0
      · rw [if_pos hr]
        constructor
        · show s.padOut.length = plain.content.length
          omega
        · show s.out.length = plain.content.length
          omega
      · rw [if_neg hr] at h ⊢
        cases hsq : src (plain.content.length / 8) with
        | none =>
          rw [hsq] at h
          simp at h
        | some v =>
          constructor
          · show (s.padOut ++ (bytesOfUll v).take (plain.content.length % 8)).length =
              plain.content.length
            rw [List.length_append, List.length_take, bytesOfUll_length, hp, hmin]
            omega
          · show (s.out ++ (bytesOfUll
                (ullOf (setBytes s.cpad
                  (cfread s.plain (plain.content.length % 8)).1) ^^^
                  ullOf (bytesOfUll v))).take (plain.content.length % 8)).length =
              plain.content.length
            rw [List.length_append, List.length_take, bytesOfUll_length, ho, hmin]
            omega

/-- C7: if the pad source's generator fails on draw `j` (all earlier draws
succeeding, and block `j` needed), the whole `encrypt` aborts at once with
`EntropyUnavailable`: exactly the `j` blocks before the failure were processed
(`8 * j` bytes on each output stream), the trace ends with the single failed
draw attempt — it is not retried, no other generator is consulted, and no
event of any later block follows. -/
theorem c7_entropy_abort (plain : CFile) (src : Nat → Option Nat) (j : Nat)
    (hsome : ∀ k, k < j → src k ≠ none)
    (hnone : src j = none)
    (hj : 8 * j < plain.content.length) :
    (encrypt plain src).err = some TransformError.EntropyUnavailable ∧
    (encrypt plain src).padOut.length = 8 * j ∧
    (encrypt plain src).cipherOut.length = 8 * j ∧
    (encrypt plain src).events = fullEvs 0 j ++ [Ev.draw j] := by
  have hL : 0 < plain.content.length := by omega
  unfold encrypt encryptCore
  rw [fsize_eq]
  dsimp only
  rw [if_neg (by omega : ¬((plain.content.length : Int) ≤ 0))]
  simp only [Int.toNat_natCast, ULL_SIZE]
  by_cases hjq : j < plain.content.length / 8
  · obtain ⟨s', heq, h1, h2, h3⟩ :=
      encBlocks_fail_spec src (plain.content.length / 8) 0 j
        ⟨plain, List.replicate 8 0, [], [], []⟩ (by omega) (by omega)
        (fun k _ hk => hsome k hk) hnone
    rw [heq]
    dsimp only at h1 h2 h3 ⊢
    simp only [List.length_nil, Nat.zero_add, Nat.sub_zero, List.nil_append] at h1 h2 h3
    exact ⟨rfl, h1, h2, h3⟩
  · have hq : j = plain.content.length / 8 := by omega
    have hr : ¬plain.content.length % 8 = 0 := by omega
    obtain ⟨s', heq, h1, h2, h3⟩ :=
      encBlocks_succeeds src (plain.content.length / 8) 0
        ⟨plain, List.replicate 8 0, [], [], []⟩
        (fun k _ hk => hsome k (by omega))
    rw [heq]
    dsimp only
    rw [if_neg hr]
    rw [hq] at hnone
    rw [hnone]
    dsimp only at h1 h2 h3 ⊢
    simp only [List.length_nil, Nat.zero_add, List.nil_append] at h1 h2 h3
    subst hq
    exact ⟨rfl, h1, h2, by rw [h3]⟩

/-- C8: both directions partition the input into exactly `len / 8` full 8-byte
blocks plus one `len mod 8`-byte block exactly when `len mod 8 > 0`; the block
sizes sum to the length, and each input cursor ends at the stream's length
after advancing monotonically, so no byte is skipped and none is processed
twice. -/
theorem c8_partition (P : List Nat) (f : Nat → Nat) (cf pf : CFile)
    (hb : ∀ b ∈ P, b < 256) (hne : P ≠ [])
    (hc : 0 < cf.content.length) (hlen : pf.content.length = cf.content.length)
    (hcp : cf.pos = 0) (hpp : pf.pos = 0) :
    (encrypt ⟨P, 0⟩ (fun k => some (f k))).events.filterMap evReadSize =
      List.replicate (P.length / 8) 8 ++
        (if P.length % 8 = 0 then [] else [P.length % 8]) ∧
    ((encrypt ⟨P, 0⟩ (fun k => some (f k))).events.filterMap evReadSize).sum = P.length ∧
    (encrypt ⟨P, 0⟩ (fun k => some (f k))).plainFinal.pos = P.length ∧
    (decrypt cf pf).err = none ∧
    (decrypt cf pf).blocks =
      List.replicate (cf.content.length / 8) 8 ++
        (if cf.content.length % 8 = 0 then [] else [cf.content.length % 8]) ∧
    (decrypt cf pf).blocks.sum = cf.content.length ∧
    (decrypt cf pf).cipherFinal.pos = cf.content.length ∧
    (decrypt cf pf).padFinal.pos = pf.content.length := by
  have hL : 0 < P.length := List.length_pos.mpr hne
  have hreads : (encrypt ⟨P, 0⟩ (fun k => some (f k))).events.filterMap evReadSize =
      List.replicate (P.length / 8) 8 ++
        (if P.length % 8 = 0 then [] else [P.length % 8]) := by
    rw [encrypt_spec P f hb hne]
    dsimp only
    rw [List.filterMap_append, fullEvs_filterMap_read]
    by_cases hr : P.length % 8 = 0
    · simp [hr]
    · rw [if_neg hr, if_neg hr, blockEvs_filterMap_read]
  have hsum : (List.replicate (P.length / 8) 8 ++
      (if P.length % 8 = 0 then [] else [P.length % 8])).sum = P.length := by
    rw [List.sum_append, List.sum_replicate, smul_eq_mul]
    by_cases hr : P.length % 8 = 0
    · rw [if_pos hr]
      simp only [List.sum_nil]
      omega
    · rw [if_neg hr]
      simp only [List.sum_cons, List.sum_nil]
      omega
  refine ⟨hreads, by rw [hreads]; exact hsum, ?_, ?_⟩
  · rw [encrypt_spec P f hb hne]
  · obtain ⟨CC, cpos⟩ := cf
    obtain ⟨PC, ppos⟩ := pf
    replace hc : 0 < CC.length := hc
    replace hlen : PC.length = CC.length := hlen
    replace hcp : cpos = 0 := hcp
    replace hpp : ppos = 0 := hpp
    subst hcp hpp
    obtain ⟨h1, h2, h3, h4⟩ := decrypt_acc CC PC hc hlen
    refine ⟨h1, h2, ?_, h3, ?_⟩
    · rw [h2, List.sum_append, List.sum_replicate, smul_eq_mul]
      by_cases hr : CC.length % 8 = 0
      · rw [if_pos hr]
        simp only [List.sum_nil]
        omega
      · rw [if_neg hr]
        simp only [List.sum_cons, List.sum_nil]
        omega
    · show (decrypt ⟨CC, 0⟩ ⟨PC, 0⟩).padFinal.pos = PC.length
      rw [hlen]
      exact h4

/-- C9: in a successful `encrypt`, block `i`'s pad word is drawn strictly
before block `i`'s XOR — `[draw i, xorBlock i]` is a sublist of the trace —
and the block indices along the trace are monotone, so block `i` is fully
processed before block `i + 1` begins (`(len + 7) / 8` is the number of
blocks). -/
theorem c9_ordering (P : List Nat) (f : Nat → Nat)
    (hb : ∀ b ∈ P, b < 256) (hne : P ≠ []) :
    (∀ i, i < (P.length + 7) / 8 →
      List.Sublist [Ev.draw i, Ev.xorBlock i]
        (encrypt ⟨P, 0⟩ (fun k => some (f k))).events) ∧
    List.Pairwise (fun a b => evIdx a ≤ evIdx b)
      (encrypt ⟨P, 0⟩ (fun k => some (f k))).events := by
  have hL : 0 < P.length := List.length_pos.mpr hne
  rw [encrypt_spec P f hb hne]
  dsimp only
  constructor
  · intro i hi
    have h8 : 8 * i < P.length := by omega
    by_cases hiq : i < P.length / 8
    · obtain ⟨l1, l2, hfe⟩ := fullEvs_block_infix (P.length / 8) 0 i (by omega) (by omega)
      rw [hfe]
      refine List.Sublist.trans ?_ (List.sublist_append_left _ _)
      refine List.Sublist.trans ?_ (List.sublist_append_right l1 _)
      exact List.Sublist.trans (blockEvs_sublist i ULL_SIZE) (List.sublist_append_left _ _)
    · have hiq' : i = P.length / 8 := by omega
      have hr : ¬P.length % 8 = 0 := by omega
      rw [if_neg hr]
      subst hiq'
      exact List.Sublist.trans (blockEvs_sublist _ _) (List.sublist_append_right _ _)
  · rw [List.pairwise_append]
    refine ⟨fullEvs_pairwise _ 0, ?_, ?_⟩
    · by_cases hr : P.length % 8 = 0
      · simp [hr]
      · rw [if_neg hr]
        exact blockEvs_pairwise _ _
    · intro a ha b hbx
      have hab := fullEvs_idx_bound (P.length / 8) 0 a ha
      by_cases hr : P.length % 8 = 0
      · rw [if_pos hr] at hbx
        simp at hbx
      · rw [if_neg hr] at hbx
        rw [blockEvs_idx _ _ b hbx]
        omega

/-! ### Witnesses: the claim theorems applied at concrete inputs -/

/-- Witness for C1: a 9-byte plaintext (one full block plus a 1-byte remainder)
round-trips. -/
theorem c1_round_trip_witness :
    (decrypt
      ⟨(encrypt ⟨[1, 2, 3, 4, 5, 6, 7, 8, 9], 0⟩ (fun k => some (k + 11))).cipherOut, 0⟩
      ⟨(encrypt ⟨[1, 2, 3, 4, 5, 6, 7, 8, 9], 0⟩ (fun k => some (k + 11))).padOut, 0⟩).out =
      [1, 2, 3, 4, 5, 6, 7, 8, 9] :=
  (c1_round_trip [1, 2, 3, 4, 5, 6, 7, 8, 9] (fun k => k + 11) (by decide) (by decide)).2.2

/-- Witness for C2: a 10-byte ciphertext against a 9-byte pad. -/
theorem c2_size_mismatch_witness :
    (decrypt ⟨List.replicate 10 7, 0⟩ ⟨List.replicate 9 7, 0⟩).err =
      some TransformError.SizeMismatch ∧
    (decrypt ⟨List.replicate 10 7, 0⟩ ⟨List.replicate 9 7, 0⟩).out = [] ∧
    (decrypt ⟨List.replicate 10 7, 0⟩ ⟨List.replicate 9 7, 0⟩).blocks = [] ∧
    (decrypt ⟨List.replicate 10 7, 0⟩ ⟨List.replicate 9 7, 0⟩).cipherFinal.pos = 0 ∧
    (decrypt ⟨List.replicate 10 7, 0⟩ ⟨List.replicate 9 7, 0⟩).padFinal.pos = 0 :=
  c2_size_mismatch ⟨List.replicate 10 7, 0⟩ ⟨List.replicate 9 7, 0⟩
    (by decide) (by decide) (by decide)

/-- Witness for C3: encrypting 3 bytes writes 3 pad bytes and 3 ciphertext
bytes. -/
theorem c3_length_preservation_witness :
    (encrypt ⟨[1, 2, 3], 0⟩ (fun _ => some 5)).padOut.length = 3 ∧
    (encrypt ⟨[1, 2, 3], 0⟩ (fun _ => some 5)).cipherOut.length = 3 :=
  c3_length_preservation ⟨[1, 2, 3], 0⟩ (fun _ => some 5) (by decide)

/-- Witness for C5: the empty stream is rejected in all three roles. -/
theorem c5_empty_rejected_witness :
    (encrypt ⟨[], 0⟩ (fun _ => some 5)).err = some TransformError.InvalidSize ∧
    (decrypt ⟨[], 0⟩ ⟨[1], 0⟩).err = some TransformError.InvalidSize ∧
    (decrypt ⟨[1], 0⟩ ⟨[], 0⟩).err = some TransformError.InvalidSize :=
  ⟨((c5_empty_rejected ⟨[], 0⟩ ⟨[], 0⟩ ⟨[1], 0⟩ (fun _ => some 5)).1 rfl).1,
    ((c5_empty_rejected ⟨[], 0⟩ ⟨[], 0⟩ ⟨[1], 0⟩ (fun _ => some 5)).2.1 rfl).1,
    ((c5_empty_rejected ⟨[], 0⟩ ⟨[1], 0⟩ ⟨[], 0⟩ (fun _ => some 5)).2.2 rfl).1⟩

/-- Witness for C6: a 9-byte plaintext draws exactly the two pad words 0 and 1
(the spec's remainder-isolation scenario: one full block, one 1-byte remainder
block, two distinct draws). -/
theorem c6_pad_freshness_witness :
    (encrypt ⟨[1, 2, 3, 4, 5, 6, 7, 8, 9], 0⟩
        (fun k => some (k + 1))).events.filterMap evDrawIdx = [0, 1] := by
  have h := (c6_pad_freshness [1, 2, 3, 4, 5, 6, 7, 8, 9] (fun k => k + 1)
    (by decide) (by decide)).2.2
  rw [h]
  decide

/-- Witness for C7: with draw 1 failing on a 17-byte plaintext, encryption
stops after one block. -/
theorem c7_entropy_abort_witness :
    (encrypt ⟨List.replicate 17 3, 0⟩
        (fun k => if k = 1 then none else some 5)).err =
      some TransformError.EntropyUnavailable ∧
    (encrypt ⟨List.replicate 17 3, 0⟩
        (fun k => if k = 1 then none else some 5)).padOut.length = 8 ∧
    (encrypt ⟨List.replicate 17 3, 0⟩
        (fun k => if k = 1 then none else some 5)).cipherOut.length = 8 :=
  ⟨(c7_entropy_abort ⟨List.replicate 17 3, 0⟩ _ 1 (by decide) (by decide) (by decide)).1,
    (c7_entropy_abort ⟨List.replicate 17 3, 0⟩ _ 1 (by decide) (by decide) (by decide)).2.1,
    (c7_entropy_abort ⟨List.replicate 17 3, 0⟩ _ 1 (by decide) (by decide) (by decide)).2.2.1⟩

/-- Witness for C8: 9 plaintext bytes are read as one 8-byte block plus one
1-byte block; a 10-byte ciphertext/pad pair decrypts as blocks `[8, 2]`. -/
theorem c8_partition_witness :
    ((encrypt ⟨[1, 2, 3, 4, 5, 6, 7, 8, 9], 0⟩
        (fun k => some (k + 3))).events.filterMap evReadSize).sum = 9 ∧
    (decrypt ⟨List.replicate 10 1, 0⟩ ⟨List.replicate 10 2, 0⟩).blocks = [8, 2] := by
  have h := c8_partition [1, 2, 3, 4, 5, 6, 7, 8, 9] (fun k => k + 3)
    ⟨List.replicate 10 1, 0⟩ ⟨List.replicate 10 2, 0⟩
    (by decide) (by decide) (by decide) (by decide) rfl rfl
  refine ⟨h.2.1, ?_⟩
  rw [h.2.2.2.2.1]
  decide

/-- Witness for C9: on a 9-byte plaintext, the draw of each of the two blocks
precedes its XOR, and the trace's block indices are monotone. -/
theorem c9_ordering_witness :
    List.Sublist [Ev.draw 0, Ev.xorBlock 0]
      (encrypt ⟨[1, 2, 3, 4, 5, 6, 7, 8, 9], 0⟩ (fun k => some (k + 7))).events ∧
    List.Sublist [Ev.draw 1, Ev.xorBlock 1]
      (encrypt ⟨[1, 2, 3, 4, 5, 6, 7, 8, 9], 0⟩ (fun k => some (k + 7))).events ∧
    List.Pairwise (fun a b => evIdx a ≤ evIdx b)
      (encrypt ⟨[1, 2, 3, 4, 5, 6, 7, 8, 9], 0⟩ (fun k => some (k + 7))).events := by
  have h := c9_ordering [1, 2, 3, 4, 5, 6, 7, 8, 9] (fun k => k + 7) (by decide) (by decide)
  exact ⟨h.1 0 (by decide), h.1 1 (by decide), h.2⟩

end SimpleOTP
